import Mathlib

/-!
Shallow embedding of `src/gitlab.rs` from the mise repository: a disk-backed,
TTL cache keyed by normalized repository identifiers, with three cache groups
(release list, single release, tag list), a paginated fetcher following
"link" continuation headers, and release filtering.

External collaborators (the HTTP transport, the `heck` kebab-case crate, the
`dirs`/`duration` modules and the `CacheManager` implementation, none of which
are under `src/`) are modelled explicitly where a claim needs them; each such
definition carries a doc comment saying so.
-/

namespace MiseGitlab

/-- Embeds `struct GitlabAsset` (gitlab.rs lines 27-31). -/
structure GitlabAsset where
  name : String
  browser_download_url : String
deriving DecidableEq, Repr

/-- Embeds `struct GitlabRelease` (gitlab.rs lines 13-19). -/
structure GitlabRelease where
  tag_name : String
  draft : Bool
  prerelease : Bool
  assets : List GitlabAsset
deriving DecidableEq, Repr

/-- Embeds `struct GitlabTag` (gitlab.rs lines 21-24). -/
structure GitlabTag where
  name : String
deriving DecidableEq, Repr

/-- Model of `reqwest::header::HeaderMap` as an association list from header
name to value; a value of `none` stands for a header value that is not valid
as a string (so `to_str()` fails and `unwrap_or_default` yields `""`). -/
abbrev Headers : Type := List (String × Option String)

/-- The string the Rust code extracts from the header map in `next_page`:
`headers.get("link").map(to_str().unwrap_or_default().to_string()).unwrap_or_default()`
(gitlab.rs lines 141-144): absent header or invalid value both give `""`. -/
def linkHeaderString (headers : Headers) : String :=
  match headers.lookup "link" with
  | none => ""
  | some none => ""
  | some (some s) => s

/-- The literal text that must follow the closing angle bracket in the
continuation-link regex `<([^>]+)>; rel="next"` (gitlab.rs line 145). -/
def relNextMarker : List Char := String.toList "; rel=\"next\""

/-- Scans for the closing angle bracket: `spanUrl cs = some (u, rest)` when
`cs = u ++ '>' :: rest` with no angle bracket inside `u`; this is how the
greedy `[^>]+` subpattern consumes characters up to the first `>`. -/
def spanUrl : List Char → Option (List Char × List Char)
  | [] => none
  | c :: cs =>
    if c = '>' then some ([], cs)
    else
      match spanUrl cs with
      | some (u, rest) => some (c :: u, rest)
      | none => none

/-- Tries to complete a regex match that started at an opening angle bracket:
a nonempty bracket-free capture, a closing bracket, then the literal
`; rel="next"`. -/
def tryCaptureNext (cs : List Char) : Option (List Char) :=
  match spanUrl cs with
  | some (u, rest) =>
    if u ≠ [] ∧ relNextMarker.isPrefixOf rest then some u else none
  | none => none

/-- Leftmost match of the regex `<([^>]+)>; rel="next"` over a character list,
returning the first capture group, as `regex.captures(..).map(c.get(1))` does. -/
def findNextCapture : List Char → Option (List Char)
  | [] => none
  | c :: cs =>
    if c = '<' then
      match tryCaptureNext cs with
      | some u => some u
      | none => findNextCapture cs
    else findNextCapture cs

/-- Embeds `fn next_page(headers: &HeaderMap) -> Option<String>`
(gitlab.rs lines 140-148). -/
def next_page (headers : Headers) : Option String :=
  (findNextCapture (linkHeaderString headers).toList).map (fun cs => String.mk cs)

/-- Modelled from the spec: `heck::ToKebabCase` is an external crate; the spec
(§4.3) requires a canonical, filesystem-safe, case-normalized token
(lowercase, hyphen-separated), so the model splits on non-alphanumeric
characters, lowercases each word and joins words with hyphens. -/
def toKebabCase (s : String) : String :=
  String.intercalate "-"
    ((splitWordsAux s.toList []).map (fun w => String.mk (w.map Char.toLower)))
where
  /-- Splits a character list into maximal alphanumeric runs. -/
  splitWordsAux : List Char → List Char → List (List Char)
    | [], acc => if acc = [] then [] else [acc.reverse]
    | c :: cs, acc =>
      if c.isAlphanum then splitWordsAux cs (c :: acc)
      else if acc = [] then splitWordsAux cs []
      else acc.reverse :: splitWordsAux cs []

/-- Model of `CacheManager` (declared in the repository's cache module, not
under src/): the fields the builder calls in gitlab.rs set, namely the cache
file path and the optional freshness duration. -/
structure CacheManager where
  cache_file_path : String
  fresh_duration : Option Nat
deriving DecidableEq, Repr

/-- Modelled from the spec: `duration::DAILY`, the freshness window used by
all three groups; one day in seconds. Claims depend only on it being one
fixed value. -/
def DAILY : Nat := 86400

/-- Model of `CacheManagerBuilder::new(path)` (repository cache module, not
under src/): a builder holding the path with no freshness duration yet. -/
def CacheManagerBuilder.new (path : String) : CacheManager :=
  { cache_file_path := path, fresh_duration := none }

/-- Model of `CacheManagerBuilder::with_fresh_duration` (repository cache
module, not under src/). -/
def CacheManager.with_fresh_duration (m : CacheManager) (d : Option Nat) : CacheManager :=
  { m with fresh_duration := d }

/-- Embeds `type CacheGroup<T> = HashMap<String, CacheManager<T>>`
(gitlab.rs line 33), as an association list. -/
abbrev CacheGroup : Type := List (String × CacheManager)

/-- Embeds `HashMap::entry(key).or_insert_with(f)`: inserts `f ()` only when
the key is absent. -/
def orInsertWith (g : CacheGroup) (key : String) (f : Unit → CacheManager) : CacheGroup :=
  match g.lookup key with
  | some _ => g
  | none => (key, f ()) :: g

/-- Embeds `fn cache_dir() -> PathBuf { dirs::CACHE.join("gitlab") }`
(gitlab.rs lines 150-152), with the external `dirs::CACHE` root as a
parameter. -/
def cache_dir (cacheRoot : String) : String := cacheRoot ++ "/gitlab"

/-- The file path the tags group binds to a key (gitlab.rs line 46). -/
def tags_cache_path (dir key : String) : String :=
  dir ++ "/" ++ key ++ "-tags.msgpack.z"

/-- The file path the releases group binds to a key (gitlab.rs line 59). -/
def releases_cache_path (dir key : String) : String :=
  dir ++ "/" ++ key ++ "-releases.msgpack.z"

/-- The file path the single-release group binds to a key (gitlab.rs line 72). -/
def release_cache_path (dir key : String) : String :=
  dir ++ "/" ++ key ++ ".msgpack.z"

/-- Embeds `fn get_tags_cache` (gitlab.rs lines 41-52): insert-if-absent of a
manager for `key` into the tags group state. -/
def get_tags_cache (cacheRoot : String) (st : CacheGroup) (key : String) : CacheGroup :=
  orInsertWith st key (fun _ =>
    ((CacheManagerBuilder.new (tags_cache_path (cache_dir cacheRoot) key)).with_fresh_duration
      (some DAILY)))

/-- Embeds `fn get_releases_cache` (gitlab.rs lines 54-65). -/
def get_releases_cache (cacheRoot : String) (st : CacheGroup) (key : String) : CacheGroup :=
  orInsertWith st key (fun _ =>
    ((CacheManagerBuilder.new (releases_cache_path (cache_dir cacheRoot) key)).with_fresh_duration
      (some DAILY)))

/-- Embeds `fn get_release_cache` (gitlab.rs lines 67-78). -/
def get_release_cache (cacheRoot : String) (st : CacheGroup) (key : String) : CacheGroup :=
  orInsertWith st key (fun _ =>
    ((CacheManagerBuilder.new (release_cache_path (cache_dir cacheRoot) key)).with_fresh_duration
      (some DAILY)))

/-- The cache key `list_releases` derives: `repo.to_kebab_case()`
(gitlab.rs line 81). -/
def list_releases_key (repo : String) : String := toKebabCase repo

/-- The cache key `list_tags` derives: `repo.to_kebab_case()`
(gitlab.rs line 107). -/
def list_tags_key (repo : String) : String := toKebabCase repo

/-- The cache key `get_release` derives:
`format!("repo-tag").to_kebab_case()` (gitlab.rs line 129). -/
def get_release_key (repo tag : String) : String :=
  toKebabCase (repo ++ "-" ++ tag)

/-- The initial URL `list_releases_` requests (gitlab.rs line 90). -/
def list_releases_url (repo : String) : String :=
  "https://api.github.com/repos/" ++ repo ++ "/releases"

/-- The initial URL `list_tags_` requests (gitlab.rs line 114). -/
def list_tags_url (repo : String) : String :=
  "https://api.github.com/repos/" ++ repo ++ "/tags"

/-- The URL `get_release_` requests (gitlab.rs line 136). -/
def get_release_url (api_base_url repo tag : String) : String :=
  api_base_url ++ "/projects/" ++ repo ++ "/releases/" ++ tag

/-- Embeds the `while let Some(next) = next_page(&headers)` accumulation loop
shared verbatim by `list_releases_` (gitlab.rs lines 95-99) and `list_tags_`
(gitlab.rs lines 117-121). The HTTP collaborator is a function from URL to
result; `fuel` bounds the number of continuation fetches, and exhausting it
returns `none` (the Rust loop has no such bound; theorems supply enough
fuel for the page chain at hand). -/
def fetchMorePages {ε α : Type} (http : String → Except ε (List α × Headers)) :
    Nat → List α → Headers → Option (Except ε (List α))
  | 0, acc, headers =>
    match next_page headers with
    | none => some (Except.ok acc)
    | some _ => none
  | fuel + 1, acc, headers =>
    match next_page headers with
    | none => some (Except.ok acc)
    | some nxt =>
      match http nxt with
      | Except.error e => some (Except.error e)
      | Except.ok (more, h) => fetchMorePages http fuel (acc ++ more) h

/-- The post-accumulation filter of `list_releases_`:
`releases.retain(not draft and not prerelease)` (gitlab.rs line 101). -/
def releaseKeep (r : GitlabRelease) : Bool := !r.draft && !r.prerelease

/-- Embeds `fn list_releases_(repo)` (gitlab.rs lines 87-104): fetch the first
page, follow continuation links when fetch-all mode
(`*env::MISE_LIST_ALL_VERSIONS`, passed as `fetchAll`) is on, then drop draft
and prerelease records. -/
def list_releases_ {ε : Type} (http : String → Except ε (List GitlabRelease × Headers))
    (fetchAll : Bool) (fuel : Nat) (repo : String) :
    Option (Except ε (List GitlabRelease)) :=
  match http (list_releases_url repo) with
  | Except.error e => some (Except.error e)
  | Except.ok (releases, headers) =>
    match (if fetchAll then fetchMorePages http fuel releases headers
           else some (Except.ok releases)) with
    | none => none
    | some (Except.error e) => some (Except.error e)
    | some (Except.ok rs) => some (Except.ok (rs.filter releaseKeep))

/-- Embeds `fn list_tags_(repo)` (gitlab.rs lines 113-126): same pagination,
then project each tag record to its name. -/
def list_tags_ {ε : Type} (http : String → Except ε (List GitlabTag × Headers))
    (fetchAll : Bool) (fuel : Nat) (repo : String) :
    Option (Except ε (List String)) :=
  match http (list_tags_url repo) with
  | Except.error e => some (Except.error e)
  | Except.ok (tags, headers) =>
    match (if fetchAll then fetchMorePages http fuel tags headers
           else some (Except.ok tags)) with
    | none => none
    | some (Except.error e) => some (Except.error e)
    | some (Except.ok ts) => some (Except.ok (ts.map GitlabTag.name))

/-- Embeds `fn get_release_(repo, tag, api_base_url)` (gitlab.rs lines
135-138): a single request, no pagination, no cache-group suffix. -/
def get_release_ {ε : Type} (http : String → Except ε GitlabRelease)
    (repo tag api_base_url : String) : Except ε GitlabRelease :=
  http (get_release_url api_base_url repo tag)

/-- Modelled from the spec: `CacheManager::get_or_try_init` (repository cache
module, not under src/; spec §4.1): with no fresh cached value, run `compute`
and cache only on success; with a fresh cached value, return it without
running `compute`. The state is the cached value, `none` when absent or
stale. Returns the result together with the new cached state. -/
def get_or_try_init {ε T : Type} (cached : Option T) (compute : Unit → Except ε T) :
    Except ε T × Option T :=
  match cached with
  | some v => (Except.ok v, some v)
  | none =>
    match compute () with
    | Except.ok v => (Except.ok v, some v)
    | Except.error e => (Except.error e, none)

/-- States that `http` serves, from the headers `headers`, a chain of further
pages `ps`: when `ps` is empty the headers carry no continuation link, and
otherwise they link to a URL serving the next page. -/
def ChainFrom {ε α : Type} (http : String → Except ε (List α × Headers)) :
    Headers → List (List α) → Prop
  | headers, [] => next_page headers = none
  | headers, p :: ps =>
    ∃ nxt h, next_page headers = some nxt ∧ http nxt = Except.ok (p, h) ∧ ChainFrom http h ps

/-- States that `http` serves at `url` a finite linear chain of pages: the
first page of `pages` at `url` itself, each further page reached through the
previous page's continuation link, and no link on the last page. -/
def ServesChain {ε α : Type} (http : String → Except ε (List α × Headers))
    (url : String) : List (List α) → Prop
  | [] => False
  | p :: ps => ∃ h, http url = Except.ok (p, h) ∧ ChainFrom http h ps

/-- States that `http`, from the headers `headers`, serves the pages `ps` and
then fails with error `e` on the fetch after the last page of `ps`. -/
def ChainFromErr {ε α : Type} (http : String → Except ε (List α × Headers)) (e : ε) :
    Headers → List (List α) → Prop
  | headers, [] => ∃ nxt, next_page headers = some nxt ∧ http nxt = Except.error e
  | headers, p :: ps =>
    ∃ nxt h, next_page headers = some nxt ∧ http nxt = Except.ok (p, h) ∧
      ChainFromErr http e h ps

/-- States that `http` serves at `url` the pages `pages` and then errors with
`e`: for empty `pages` the very first request fails, otherwise some later
page fetch fails after `pages` were served. -/
def ServesChainErr {ε α : Type} (http : String → Except ε (List α × Headers))
    (url : String) (e : ε) : List (List α) → Prop
  | [] => http url = Except.error e
  | p :: ps => ∃ h, http url = Except.ok (p, h) ∧ ChainFromErr http e h ps

/-- States that a character sequence contains a segment the continuation
regex matches: an opening angle bracket, a nonempty URL text free of closing
angle brackets, a closing angle bracket, then the literal text of the
rel-next marker. -/
def HasNextSegment (cs : List Char) : Prop :=
  ∃ a u b, cs = a ++ '<' :: (u ++ '>' :: (relNextMarker ++ b)) ∧ u ≠ [] ∧ '>' ∉ u

/-- Headers carrying a continuation link to `nxt`, in the shape GitHub's API
produces; used by concrete instantiations. -/
def pageHeaders (nxt : String) : Headers :=
  [("link", some ("<" ++ nxt ++ ">; rel=\"next\""))]

/-- A release record with the given tag and flags and no assets; used by
concrete instantiations. -/
def mkRel (tag : String) (d p : Bool) : GitlabRelease :=
  { tag_name := tag, draft := d, prerelease := p, assets := [] }

/-- A concrete three-page release server: the first page at the release-list
URL of repository `r`, two continuation pages, no link on the last. -/
def chainHttpR : String → Except String (List GitlabRelease × Headers) := fun url =>
  if url = list_releases_url "r" then Except.ok ([mkRel "v1" false false], pageHeaders "r2")
  else if url = "r2" then Except.ok ([mkRel "v2" false false], pageHeaders "r3")
  else if url = "r3" then Except.ok ([mkRel "v3" false false], [])
  else Except.error "404"

/-- A concrete three-page tag server, analogous to `chainHttpR`. -/
def chainHttpT : String → Except String (List GitlabTag × Headers) := fun url =>
  if url = list_tags_url "r" then Except.ok ([{ name := "t1" }], pageHeaders "u2")
  else if url = "u2" then Except.ok ([{ name := "t2" }], pageHeaders "u3")
  else if url = "u3" then Except.ok ([{ name := "t3" }], [])
  else Except.error "404"

/-- A concrete single-page release server whose page holds one plain, one
draft and one prerelease record. -/
def filterHttp : String → Except String (List GitlabRelease × Headers) := fun url =>
  if url = list_releases_url "r" then
    Except.ok ([mkRel "v1" false false, mkRel "v2" true false, mkRel "v3" false true], [])
  else Except.error "404"

/-- A concrete tag server that serves a first page with a continuation link
and fails on every other URL. -/
def errHttp : String → Except String (List GitlabTag × Headers) := fun url =>
  if url = list_tags_url "r" then Except.ok ([{ name := "t1" }], pageHeaders "u2")
  else Except.error "boom"

/-- A release server erroring everywhere; agrees with `agreeHttp2` on the
release-list URL of repository `r` only. -/
def agreeHttp1 : String → Except String (List GitlabRelease × Headers) := fun _ =>
  Except.error "x"

/-- A release server erroring only at the release-list URL of repository
`r`. -/
def agreeHttp2 : String → Except String (List GitlabRelease × Headers) := fun url =>
  if url = list_releases_url "r" then Except.error "x" else Except.ok ([], [])

/-! ### Helper lemmas -/

lemma orInsertWith_of_mem (g : CacheGroup) (key : String) (f : Unit → CacheManager)
    (m : CacheManager) (h : g.lookup key = some m) : orInsertWith g key f = g := by
  simp [orInsertWith, h]

lemma lookup_orInsertWith_isSome (g : CacheGroup) (key : String) (f : Unit → CacheManager) :
    ((orInsertWith g key f).lookup key).isSome := by
  unfold orInsertWith
  cases hg : g.lookup key with
  | some m => simp [hg]
  | none => simp [List.lookup]

lemma orInsertWith_idem (g : CacheGroup) (key : String) (f : Unit → CacheManager) :
    orInsertWith (orInsertWith g key f) key f = orInsertWith g key f := by
  obtain ⟨m, hm⟩ := Option.isSome_iff_exists.mp (lookup_orInsertWith_isSome g key f)
  exact orInsertWith_of_mem _ key f m hm

lemma revCharAt_append (p sfx : String) (n : Nat) (h : n < sfx.data.length) :
    ((p ++ sfx).data.reverse)[n]? = (sfx.data.reverse)[n]? := by
  rw [String.data_append, List.reverse_append]
  exact List.getElem?_append_left (by simpa using h)

lemma releases_path_ne_tags_path (d k1 k2 : String) :
    releases_cache_path d k1 ≠ tags_cache_path d k2 := by
  intro heq
  have h1 : ((releases_cache_path d k1).data.reverse)[11]? = some 'e' := by
    have hs : releases_cache_path d k1 = (d ++ "/" ++ k1) ++ "-releases.msgpack.z" := by
      rw [releases_cache_path]
    rw [hs, revCharAt_append _ _ 11 (by decide)]
    decide
  have h2 : ((tags_cache_path d k2).data.reverse)[11]? = some 'g' := by
    have hs : tags_cache_path d k2 = (d ++ "/" ++ k2) ++ "-tags.msgpack.z" := by
      rw [tags_cache_path]
    rw [hs, revCharAt_append _ _ 11 (by decide)]
    decide
  rw [heq, h2] at h1
  simp at h1

lemma spanUrl_sound : ∀ (cs u rest : List Char), spanUrl cs = some (u, rest) →
    cs = u ++ '>' :: rest ∧ '>' ∉ u := by
  intro cs
  induction cs with
  | nil => intro u rest h; simp [spanUrl] at h
  | cons c cs ih =>
    intro u rest h
    by_cases hc : c = '>'
    · rw [spanUrl, if_pos hc] at h
      simp only [Option.some.injEq, Prod.mk.injEq] at h
      obtain ⟨rfl, rfl⟩ := h
      simp [hc]
    · rw [spanUrl, if_neg hc] at h
      cases hs : spanUrl cs with
      | none => rw [hs] at h; simp at h
      | some pr =>
        obtain ⟨u', rest'⟩ := pr
        rw [hs] at h
        simp only [Option.some.injEq, Prod.mk.injEq] at h
        obtain ⟨rfl, rfl⟩ := h
        obtain ⟨he, hn⟩ := ih u' rest' hs
        refine ⟨by rw [he]; simp, ?_⟩
        intro hm
        rcases List.mem_cons.mp hm with hm1 | hm2
        · exact hc hm1.symm
        · exact hn hm2

lemma spanUrl_complete : ∀ (u rest : List Char), '>' ∉ u →
    spanUrl (u ++ '>' :: rest) = some (u, rest) := by
  intro u
  induction u with
  | nil => intro rest _; simp [spanUrl]
  | cons c u ih =>
    intro rest h
    have hc : c ≠ '>' := fun hcc => h (hcc ▸ List.mem_cons_self c u)
    have hu : '>' ∉ u := fun hm => h (List.mem_cons_of_mem c hm)
    simp [spanUrl, hc, ih rest hu]

lemma tryCaptureNext_sound (cs u : List Char) (h : tryCaptureNext cs = some u) :
    ∃ b, cs = u ++ '>' :: (relNextMarker ++ b) ∧ u ≠ [] ∧ '>' ∉ u := by
  unfold tryCaptureNext at h
  cases hs : spanUrl cs with
  | none => rw [hs] at h; simp at h
  | some pr =>
    obtain ⟨u', rest⟩ := pr
    rw [hs] at h
    dsimp only at h
    split at h
    · rename_i hcond
      obtain rfl : u' = u := by injection h
      obtain ⟨he, hn⟩ := spanUrl_sound cs u' rest hs
      obtain ⟨b, rfl⟩ := List.isPrefixOf_iff_prefix.mp hcond.2
      exact ⟨b, he, hcond.1, hn⟩
    · exact absurd h (by simp)

lemma tryCaptureNext_complete (u b : List Char) (hne : u ≠ []) (hnu : '>' ∉ u) :
    tryCaptureNext (u ++ '>' :: (relNextMarker ++ b)) = some u := by
  unfold tryCaptureNext
  rw [spanUrl_complete u _ hnu]
  have hpre : relNextMarker.isPrefixOf (relNextMarker ++ b) = true :=
    List.isPrefixOf_iff_prefix.mpr ⟨b, rfl⟩
  simp [hne, hpre]

lemma findNextCapture_sound : ∀ (cs u : List Char), findNextCapture cs = some u →
    ∃ a b, cs = a ++ '<' :: (u ++ '>' :: (relNextMarker ++ b)) ∧ u ≠ [] ∧ '>' ∉ u := by
  intro cs
  induction cs with
  | nil => intro u h; simp [findNextCapture] at h
  | cons c cs ih =>
    intro u h
    by_cases hc : c = '<'
    · rw [findNextCapture, if_pos hc] at h
      cases htc : tryCaptureNext cs with
      | some u' =>
        rw [htc] at h
        dsimp only at h
        obtain rfl : u' = u := by injection h
        obtain ⟨b, hcs, hne, hnu⟩ := tryCaptureNext_sound cs u' htc
        exact ⟨[], b, by simp [hc, hcs], hne, hnu⟩
      | none =>
        rw [htc] at h
        dsimp only at h
        obtain ⟨a, b, hcs, hne, hnu⟩ := ih u h
        exact ⟨c :: a, b, by simp [hcs], hne, hnu⟩
    · rw [findNextCapture, if_neg hc] at h
      obtain ⟨a, b, hcs, hne, hnu⟩ := ih u h
      exact ⟨c :: a, b, by simp [hcs], hne, hnu⟩

lemma findNextCapture_isSome : ∀ (cs : List Char), HasNextSegment cs →
    (findNextCapture cs).isSome := by
  intro cs
  induction cs with
  | nil =>
    rintro ⟨a, u, b, habs, -, -⟩
    exact absurd habs (by simp)
  | cons c cs ih =>
    rintro ⟨a, u, b, heq, hne, hnu⟩
    rw [findNextCapture]
    by_cases hc : c = '<'
    · simp only [hc, if_true]
      cases a with
      | nil =>
        have hcs : cs = u ++ '>' :: (relNextMarker ++ b) := by
          injection heq
        rw [hcs, tryCaptureNext_complete u b hne hnu]
        simp
      | cons a0 a' =>
        have hcs : cs = a' ++ '<' :: (u ++ '>' :: (relNextMarker ++ b)) := by
          injection heq
        cases htc : tryCaptureNext cs with
        | some u' => simp
        | none => exact ih ⟨a', u, b, hcs, hne, hnu⟩
    · simp only [hc, if_false]
      cases a with
      | nil =>
        exact absurd (by injection heq) hc
      | cons a0 a' =>
        have hcs : cs = a' ++ '<' :: (u ++ '>' :: (relNextMarker ++ b)) := by
          injection heq
        exact ih ⟨a', u, b, hcs, hne, hnu⟩

lemma findNextCapture_none_iff (cs : List Char) :
    findNextCapture cs = none ↔ ¬ HasNextSegment cs := by
  constructor
  · intro h hseg
    have hs := findNextCapture_isSome cs hseg
    rw [h] at hs
    simp at hs
  · intro h
    cases hf : findNextCapture cs with
    | none => rfl
    | some u =>
      obtain ⟨a, b, hcs, hne, hnu⟩ := findNextCapture_sound cs u hf
      exact absurd ⟨a, u, b, hcs, hne, hnu⟩ h

lemma fetchMorePages_of_chain {ε α : Type} (http : String → Except ε (List α × Headers))
    (ps : List (List α)) :
    ∀ (fuel : Nat) (acc : List α) (headers : Headers), ChainFrom http headers ps →
      ps.length ≤ fuel →
      fetchMorePages http fuel acc headers = some (Except.ok (acc ++ ps.flatten)) := by
  induction ps with
  | nil =>
    intro fuel acc headers hc _
    simp only [ChainFrom] at hc
    cases fuel <;> simp [fetchMorePages, hc]
  | cons p ps ih =>
    intro fuel acc headers hc hlen
    obtain ⟨nxt, h, hnp, hhttp, hch⟩ := hc
    cases fuel with
    | zero => simp at hlen
    | succ f =>
      simp only [fetchMorePages, hnp, hhttp]
      rw [ih f (acc ++ p) h hch (by simpa using hlen)]
      simp

lemma fetchMorePages_of_chainErr {ε α : Type} (http : String → Except ε (List α × Headers))
    (e : ε) (ps : List (List α)) :
    ∀ (fuel : Nat) (acc : List α) (headers : Headers), ChainFromErr http e headers ps →
      ps.length < fuel →
      fetchMorePages http fuel acc headers = some (Except.error e) := by
  induction ps with
  | nil =>
    intro fuel acc headers hc hlen
    obtain ⟨nxt, hnp, herr⟩ := hc
    cases fuel with
    | zero => simp at hlen
    | succ f => simp [fetchMorePages, hnp, herr]
  | cons p ps ih =>
    intro fuel acc headers hc hlen
    obtain ⟨nxt, h, hnp, hhttp, hch⟩ := hc
    cases fuel with
    | zero => simp at hlen
    | succ f =>
      simp only [fetchMorePages, hnp, hhttp]
      exact ih f (acc ++ p) h hch (by simpa using hlen)

/-! ### Claim theorems -/

/-- C1 counterexample: the claim says the three cache groups' backing file
paths can never collide for any inputs, but `get_release` with repository
`x` and tag `releases` derives key `x-releases`, whose single-release file
path equals the release-list file path of repository `x`. -/
theorem c1_groups_counterexample :
    release_cache_path (cache_dir "root") (get_release_key "x" "releases") =
      releases_cache_path (cache_dir "root") (list_releases_key "x") := by
  decide

/-- C1 (amended): the release-list and tag-list groups can never collide with
each other, for any cache directory and any keys, since their file-name
suffixes differ; the single-release group, whose file names carry no
distinguishing suffix, can collide with either list group, e.g. at
repository `x` with tag `releases` (resp. `tags`). -/
theorem c1_amended_group_paths (d k1 k2 : String) :
    releases_cache_path d k1 ≠ tags_cache_path d k2 ∧
    release_cache_path (cache_dir "root") (get_release_key "x" "releases") =
      releases_cache_path (cache_dir "root") (list_releases_key "x") ∧
    release_cache_path (cache_dir "root") (get_release_key "x" "tags") =
      tags_cache_path (cache_dir "root") (list_tags_key "x") :=
  ⟨releases_path_ne_tags_path d k1 k2, by decide, by decide⟩

/-- C5: two raw repository identifiers with the same kebab-case normalization
resolve, in `list_releases` and `list_tags`, to the same cache key, the same
cache manager (the group lookup after insertion agrees), and the same backing
file path. -/
theorem c5_normalized_inputs_share_entry (r1 r2 : String)
    (h : toKebabCase r1 = toKebabCase r2) (root : String) (st : CacheGroup) :
    list_releases_key r1 = list_releases_key r2 ∧
    list_tags_key r1 = list_tags_key r2 ∧
    releases_cache_path (cache_dir root) (list_releases_key r1) =
      releases_cache_path (cache_dir root) (list_releases_key r2) ∧
    tags_cache_path (cache_dir root) (list_tags_key r1) =
      tags_cache_path (cache_dir root) (list_tags_key r2) ∧
    (get_releases_cache root st (list_releases_key r1)).lookup (list_releases_key r1) =
      (get_releases_cache root st (list_releases_key r2)).lookup (list_releases_key r2) ∧
    (get_tags_cache root st (list_tags_key r1)).lookup (list_tags_key r1) =
      (get_tags_cache root st (list_tags_key r2)).lookup (list_tags_key r2) := by
  have h1 : list_releases_key r1 = list_releases_key r2 := h
  have h2 : list_tags_key r1 = list_tags_key r2 := h
  refine ⟨h1, h2, ?_, ?_, ?_, ?_⟩ <;> simp only [h1, h2]

/-- C5 witness: the raw identifiers `A B` and `a-b` normalize to the same
token, so they share key, manager and file path. -/
theorem c5_witness :
    (get_releases_cache "root" [] (list_releases_key "A B")).lookup (list_releases_key "A B") =
      (get_releases_cache "root" [] (list_releases_key "a-b")).lookup (list_releases_key "a-b") :=
  (c5_normalized_inputs_share_entry "A B" "a-b" (by decide) "root" []).2.2.2.2.1

/-- C8: for each of the three cache groups, looking the group up for a key
that already has an entry returns the state unchanged (no second manager is
ever constructed for that key), insertion is idempotent, and after a lookup
the key always has a manager. -/
theorem c8_group_insertion_idempotent (root key : String) (st : CacheGroup) :
    (∀ m, st.lookup key = some m →
      get_tags_cache root st key = st ∧ get_releases_cache root st key = st ∧
        get_release_cache root st key = st) ∧
    get_tags_cache root (get_tags_cache root st key) key = get_tags_cache root st key ∧
    get_releases_cache root (get_releases_cache root st key) key =
      get_releases_cache root st key ∧
    get_release_cache root (get_release_cache root st key) key =
      get_release_cache root st key ∧
    ((get_tags_cache root st key).lookup key).isSome ∧
    ((get_releases_cache root st key).lookup key).isSome ∧
    ((get_release_cache root st key).lookup key).isSome := by
  refine ⟨fun m hm => ⟨?_, ?_, ?_⟩, ?_, ?_, ?_, ?_, ?_, ?_⟩
  · exact orInsertWith_of_mem _ _ _ m hm
  · exact orInsertWith_of_mem _ _ _ m hm
  · exact orInsertWith_of_mem _ _ _ m hm
  · exact orInsertWith_idem _ _ _
  · exact orInsertWith_idem _ _ _
  · exact orInsertWith_idem _ _ _
  · exact lookup_orInsertWith_isSome _ _ _
  · exact lookup_orInsertWith_isSome _ _ _
  · exact lookup_orInsertWith_isSome _ _ _

/-- C8 witness: with a group state already holding a manager for key `k`,
re-lookup leaves the state unchanged. -/
theorem c8_witness :
    get_tags_cache "root" [("k", CacheManagerBuilder.new "p")] "k" =
      [("k", CacheManagerBuilder.new "p")] :=
  ((c8_group_insertion_idempotent "root" "k" [("k", CacheManagerBuilder.new "p")]).1
    (CacheManagerBuilder.new "p") rfl).1

/-- C3: when the HTTP collaborator serves a finite chain of pages, each page
but the last carrying a rel-next continuation link, fetch-all mode makes both
list operations return the concatenation of all pages' records in page order
(before their post-processing), while disabled fetch-all mode returns only
the first page's records, regardless of continuation links. -/
theorem c3_pagination {e1 e2 : Type}
    (httpR : String → Except e1 (List GitlabRelease × Headers))
    (httpT : String → Except e2 (List GitlabTag × Headers)) (repo : String)
    (rp : List GitlabRelease) (rps : List (List GitlabRelease))
    (tp : List GitlabTag) (tps : List (List GitlabTag)) (fuel : Nat)
    (hR : ServesChain httpR (list_releases_url repo) (rp :: rps))
    (hT : ServesChain httpT (list_tags_url repo) (tp :: tps))
    (hfR : rps.length ≤ fuel) (hfT : tps.length ≤ fuel) :
    list_releases_ httpR true fuel repo =
      some (Except.ok (((rp :: rps).flatten).filter releaseKeep)) ∧
    list_tags_ httpT true fuel repo =
      some (Except.ok (((tp :: tps).flatten).map GitlabTag.name)) ∧
    list_releases_ httpR false fuel repo = some (Except.ok (rp.filter releaseKeep)) ∧
    list_tags_ httpT false fuel repo = some (Except.ok (tp.map GitlabTag.name)) := by
  obtain ⟨hsR, hhR, hcR⟩ := hR
  obtain ⟨hsT, hhT, hcT⟩ := hT
  refine ⟨?_, ?_, ?_, ?_⟩
  · simp only [list_releases_, hhR, if_true]
    rw [fetchMorePages_of_chain httpR rps fuel rp hsR hcR hfR]
    simp
  · simp only [list_tags_, hhT, if_true]
    rw [fetchMorePages_of_chain httpT tps fuel tp hsT hcT hfT]
    simp
  · simp [list_releases_, hhR]
  · simp [list_tags_, hhT]

/-- C3 witness: three release pages and three tag pages, linked by rel-next
headers; fetch-all concatenates them, disabled fetch-all keeps page one. -/
theorem c3_witness :
    list_tags_ chainHttpT true 2 "r" = some (Except.ok ["t1", "t2", "t3"]) ∧
    list_releases_ chainHttpR true 2 "r" =
      some (Except.ok [mkRel "v1" false false, mkRel "v2" false false, mkRel "v3" false false]) ∧
    list_tags_ chainHttpT false 2 "r" = some (Except.ok ["t1"]) := by
  have h := c3_pagination chainHttpR chainHttpT "r"
    [mkRel "v1" false false] [[mkRel "v2" false false], [mkRel "v3" false false]]
    [{ name := "t1" }] [[{ name := "t2" }], [{ name := "t3" }]] 2
    ⟨pageHeaders "r2", rfl,
      "r2", pageHeaders "r3", rfl, rfl,
      "r3", [], rfl, rfl, rfl⟩
    ⟨pageHeaders "u2", rfl,
      "u2", pageHeaders "u3", rfl, rfl,
      "u3", [], rfl, rfl, rfl⟩
    (by decide) (by decide)
  exact ⟨h.2.1.trans rfl, h.1.trans rfl, h.2.2.2.trans rfl⟩

/-- C4: after full accumulation of all pages, the release-list query returns
exactly the fetched records whose draft flag and prerelease flag are both
false, in their original order. -/
theorem c4_release_filtering {e1 : Type}
    (http : String → Except e1 (List GitlabRelease × Headers)) (repo : String)
    (pages : List (List GitlabRelease)) (fuel : Nat)
    (h : ServesChain http (list_releases_url repo) pages)
    (hf : pages.length ≤ fuel + 1) :
    list_releases_ http true fuel repo =
      some (Except.ok (pages.flatten.filter releaseKeep)) ∧
    ∀ r : GitlabRelease, releaseKeep r = true ↔ (r.draft = false ∧ r.prerelease = false) := by
  constructor
  · cases pages with
    | nil => simp [ServesChain] at h
    | cons p ps =>
      obtain ⟨hs, hhttp, hc⟩ := h
      simp only [list_releases_, hhttp, if_true]
      rw [fetchMorePages_of_chain http ps fuel p hs hc (by simpa using hf)]
      simp
  · intro r
    cases hd : r.draft <;> cases hp : r.prerelease <;> simp [releaseKeep, hd, hp]

/-- C4 witness: of the releases v1 (plain), v2 (draft) and v3 (prerelease),
the release-list query returns only v1. -/
theorem c4_witness :
    list_releases_ filterHttp true 0 "r" = some (Except.ok [mkRel "v1" false false]) := by
  have h := (c4_release_filtering filterHttp "r"
    [[mkRel "v1" false false, mkRel "v2" true false, mkRel "v3" false true]] 0
    ⟨[], rfl, rfl⟩ (by decide)).1
  exact h.trans rfl

/-- C6: an error on any page fetch makes the whole list operation return that
error, discarding pages already fetched; and the spec-modelled
`get_or_try_init` caches nothing on a failed computation, so the next call
runs its computation afresh. -/
theorem c6_error_propagation {e1 e2 : Type}
    (httpR : String → Except e1 (List GitlabRelease × Headers))
    (httpT : String → Except e2 (List GitlabTag × Headers))
    (repo : String) (fuel : Nat) (er : e1) (et : e2)
    (rps : List (List GitlabRelease)) (tps : List (List GitlabTag)) :
    (∀ fa, httpR (list_releases_url repo) = Except.error er →
      list_releases_ httpR fa fuel repo = some (Except.error er)) ∧
    (ServesChainErr httpR (list_releases_url repo) er rps → rps.length ≤ fuel →
      list_releases_ httpR true fuel repo = some (Except.error er)) ∧
    (∀ fa, httpT (list_tags_url repo) = Except.error et →
      list_tags_ httpT fa fuel repo = some (Except.error et)) ∧
    (ServesChainErr httpT (list_tags_url repo) et tps → tps.length ≤ fuel →
      list_tags_ httpT true fuel repo = some (Except.error et)) ∧
    (∀ (compute : Unit → Except e1 (List GitlabRelease)),
      compute () = Except.error er →
        get_or_try_init none compute = (Except.error er, none)) ∧
    (∀ (compute : Unit → Except e1 (List GitlabRelease)) (v : List GitlabRelease),
      compute () = Except.ok v → get_or_try_init none compute = (Except.ok v, some v)) := by
  refine ⟨?_, ?_, ?_, ?_, ?_, ?_⟩
  · intro fa h
    simp [list_releases_, h]
  · intro hsc hlen
    cases rps with
    | nil => simp only [ServesChainErr] at hsc; simp [list_releases_, hsc]
    | cons p ps =>
      obtain ⟨hs, hhttp, hce⟩ := hsc
      simp only [list_releases_, hhttp, if_true]
      rw [fetchMorePages_of_chainErr httpR er ps fuel p hs hce (by simpa using hlen)]
  · intro fa h
    simp [list_tags_, h]
  · intro hsc hlen
    cases tps with
    | nil => simp only [ServesChainErr] at hsc; simp [list_tags_, hsc]
    | cons p ps =>
      obtain ⟨hs, hhttp, hce⟩ := hsc
      simp only [list_tags_, hhttp, if_true]
      rw [fetchMorePages_of_chainErr httpT et ps fuel p hs hce (by simpa using hlen)]
  · intro compute h
    simp [get_or_try_init, h]
  · intro compute v h
    simp [get_or_try_init, h]

/-- C6 witness: a tag server whose second page fetch fails makes the whole
operation return that error, with the first page's records discarded. -/
theorem c6_witness : list_tags_ errHttp true 1 "r" = some (Except.error "boom") := by
  have h := (c6_error_propagation agreeHttp1 errHttp "r" 1 "x" "boom"
    [] [[{ name := "t1" }]]).2.2.2.1
  exact h ⟨pageHeaders "u2", rfl, "u2", rfl, rfl⟩ (by decide)

/-- C9: both list operations build their initial URL from the fixed host
`https://api.github.com`; with fetch-all disabled their result depends on
the HTTP collaborator only through that fixed URL, with no API base URL
parameter anywhere, while `get_release_` requests exactly the caller-supplied
base followed by the projects/releases route. -/
theorem c9_fixed_urls (repo tag base : String) :
    list_releases_url repo = "https://api.github.com/repos/" ++ repo ++ "/releases" ∧
    list_tags_url repo = "https://api.github.com/repos/" ++ repo ++ "/tags" ∧
    (∀ (e : Type) (h1 h2 : String → Except e (List GitlabRelease × Headers)) (fuel : Nat),
      h1 (list_releases_url repo) = h2 (list_releases_url repo) →
      list_releases_ h1 false fuel repo = list_releases_ h2 false fuel repo) ∧
    (∀ (e : Type) (h1 h2 : String → Except e (List GitlabTag × Headers)) (fuel : Nat),
      h1 (list_tags_url repo) = h2 (list_tags_url repo) →
      list_tags_ h1 false fuel repo = list_tags_ h2 false fuel repo) ∧
    (∀ (e : Type) (http : String → Except e GitlabRelease),
      get_release_ http repo tag base =
        http (base ++ "/projects/" ++ repo ++ "/releases/" ++ tag)) := by
  refine ⟨rfl, rfl, ?_, ?_, ?_⟩
  · intro e h1 h2 fuel hagree
    simp [list_releases_, hagree]
  · intro e h1 h2 fuel hagree
    simp [list_tags_, hagree]
  · intro e http
    rfl

/-- C9 witness: two release servers that agree at the fixed release-list URL
of repository `r` (and differ elsewhere) produce the same first-page-only
result. -/
theorem c9_witness :
    list_releases_ agreeHttp1 false 0 "r" = list_releases_ agreeHttp2 false 0 "r" :=
  (c9_fixed_urls "r" "t" "base").2.2.1 String agreeHttp1 agreeHttp2 0 rfl

/-- C10: `get_release` keys distinct logical queries by the kebab-case of the
hyphen-joined repository and tag, so the distinct inputs `(a, b-c)` and
`(a-b, c)` both produce key `a-b-c` and share one cache entry and one
backing file. -/
theorem c10_release_key_aliasing :
    get_release_key "a" "b-c" = get_release_key "a-b" "c" ∧
    ("a", "b-c") ≠ (("a-b", "c") : String × String) ∧
    get_release_key "a" "b-c" = "a-b-c" ∧
    release_cache_path (cache_dir "root") (get_release_key "a" "b-c") =
      release_cache_path (cache_dir "root") (get_release_key "a-b" "c") := by
  refine ⟨by decide, by decide, by decide, by decide⟩

/-- C7: `next_page` is total and never errors: it returns `none` exactly when
the extracted link string has no segment matching the continuation regex
(in particular when the header is absent or its value is not valid as a
string), and returns `some url` exactly when such a segment is present, with
`url` the captured text between the angle brackets. -/
theorem c7_next_page_robust (headers : Headers) :
    (next_page headers = none ↔ ¬ HasNextSegment (linkHeaderString headers).toList) ∧
    (∀ u, next_page headers = some u →
      ∃ a b, (linkHeaderString headers).toList =
        a ++ '<' :: (u.toList ++ '>' :: (relNextMarker ++ b)) ∧
        u.toList ≠ [] ∧ '>' ∉ u.toList) ∧
    (headers.lookup "link" = none → next_page headers = none) ∧
    (headers.lookup "link" = some none → next_page headers = none) := by
  refine ⟨?_, ?_, ?_, ?_⟩
  · rw [next_page, Option.map_eq_none']
    exact findNextCapture_none_iff _
  · intro u h
    rw [next_page] at h
    cases hf : findNextCapture (linkHeaderString headers).toList with
    | none => rw [hf] at h; simp at h
    | some cs =>
      rw [hf] at h
      obtain rfl : String.mk cs = u := by simpa using h
      exact findNextCapture_sound _ cs hf
  · intro h
    simp [next_page, linkHeaderString, h, findNextCapture, String.toList]
  · intro h
    simp [next_page, linkHeaderString, h, findNextCapture, String.toList]

/-- C7 witness: a header map without a link header, one whose link value is
not valid as a string, and one with a well-formed continuation all behave as
the characterization says. -/
theorem c7_witness :
    next_page ([] : Headers) = none ∧
    next_page [("link", (none : Option String))] = none ∧
    ¬ HasNextSegment (linkHeaderString [("link", some "nonsense")]).toList :=
  ⟨(c7_next_page_robust []).2.2.1 rfl,
   (c7_next_page_robust [("link", (none : Option String))]).2.2.2 rfl,
   (c7_next_page_robust [("link", some "nonsense")]).1.mp rfl⟩

end MiseGitlab
